import Mathlib

/-!
Shallow embedding of the RGW log-backing generation manager
(src/rgw/rgw_log_backing.cc): shard probing, backing-type resolution,
generation removal, and the logback_generations metadata state machine.
Results of object-store and FIFO-library I/O are supplied as explicit
oracle parameters; callback return values are likewise oracles, and the
sequence of callback invocations is recorded as a list of events.
-/

/-- Backing type of a log generation (log_type in the source). -/
inductive log_type
  | omap
  | fifo
deriving DecidableEq, Repr

/-- Error kinds surfaced by the manager; they stand for the POSIX error
codes used in the source (ENOENT, EEXIST, ECANCELED, EFAULT, EINVAL, EIO,
ENODATA, ENOMEM). assertFail marks a failed ceph_assert or undefined
behaviour on an empty map, which the theorems exclude by hypothesis. -/
inductive Err
  | enoent
  | eexist
  | ecanceled
  | efault
  | einval
  | eio
  | enodata
  | enomem
  | assertFail
  | other (n : Nat)
deriving DecidableEq, Repr

/-- Modelled from the spec: the struct logback_generation is declared in
rgw_log_backing.h, which is not under src/. Per the spec data model, an
entry has gen_id (non-negative integer, default 0), a backing type, and
an empty flag (false by default). -/
structure Gen where
  gen_id : Nat
  type : log_type
  empty : Bool
deriving DecidableEq, Repr

/-- The entries map entries_t: an ordered map gen_id -> entry, embedded as
an association list in ascending key order (flat_map iteration order). -/
abbrev Entries := List (Nat × Gen)

/-- Modelled from the spec: obj_version is the opaque version pair
(monotonic counter, tag); the tag is abstracted to a Nat. Comparison is
equality on the pair; cls_version_inc bumps the counter. -/
structure Version where
  ver : Nat
  tag : Nat
deriving DecidableEq, Repr

/-- version.inc(): bump the counter, keep the tag. -/
def Version.inc (v : Version) : Version := ⟨v.ver + 1, v.tag⟩

/-- In-memory state of a logback_generations instance: the entries map
and the held version, both guarded by the mutex in the source. -/
structure State where
  entries_ : Entries
  version : Version
deriving DecidableEq, Repr

/-- Observable events: callback invocations, notifies, FIFO creation,
and watch-arming attempts. -/
inductive Ev
  | emptyTo (n : Nat)
  | newGens (es : Entries)
  | notify
  | init (es : Entries)
  | fifoCreate (shard : Nat)
  | watchArm (res : Option Err)
deriving DecidableEq, Repr

/-- Modelled from the spec: lowest_nomempty is declared in
rgw_log_backing.h, not under src/. It returns the iterator to the first
entry that is not empty; here, the suffix of the map from that entry on
(the head of the returned list is the lowest non-empty entry). -/
def lowest_nomempty (es : Entries) : Entries :=
  es.dropWhile (fun p => p.2.empty)

/-- Result of logback_generations::update — final state, events emitted,
and the returned error code (none = success). -/
structure UpdOut where
  st : State
  evs : List Ev
  res : Option Err
deriving DecidableEq, Repr

/-- logback_generations::update (rgw_log_backing.cc:330-405). readRes is
the oracle for the read() call; he and hn are the oracled return values
of the handle_empty_to and handle_new_gens callbacks. -/
def update (readRes : Except Err (Entries × Version))
    (he : Nat → Option Err) (hn : Entries → Option Err)
    (st : State) : UpdOut :=
  match readRes with
  | .error e => ⟨st, [], some e⟩
  | .ok (es, v) =>
    if v = st.version then ⟨st, [], none⟩
    else if es = [] then ⟨st, [], some .efault⟩
    else
      match (lowest_nomempty st.entries_).head? with
      | none => ⟨st, [], some .assertFail⟩
      | some curLow =>
        match (lowest_nomempty es).head? with
        | none => ⟨st, [], some .efault⟩
        | some newLow =>
          if newLow.1 < curLow.1 then ⟨st, [], some .efault⟩
          else
            let pre := es.takeWhile (fun p => p.2.empty)
            let highestEmpty : Option Nat :=
              if curLow.1 < newLow.1 then pre.getLast?.map (fun p => p.1)
              else none
            match st.entries_.getLast?, es.getLast? with
            | some curLast, some esLast =>
              if esLast.1 < curLast.1 then ⟨st, [], some .efault⟩
              else
                let newEntries : Entries :=
                  if curLast.1 < esLast.1 then
                    es.dropWhile (fun p => p.1 < curLast.1 + 1)
                  else []
                let st' : State := ⟨es, v⟩
                match highestEmpty with
                | some hx =>
                  match he hx with
                  | some e => ⟨st', [.emptyTo hx], some e⟩
                  | none =>
                    if newEntries = [] then ⟨st', [.emptyTo hx], none⟩
                    else ⟨st', [.emptyTo hx, .newGens newEntries], hn newEntries⟩
                | none =>
                  if newEntries = [] then ⟨st', [], none⟩
                  else ⟨st', [.newGens newEntries], hn newEntries⟩
            | _, _ => ⟨st, [], some .assertFail⟩

/-- Callback oracle that always succeeds (for handle_empty_to). -/
def noCbN : Nat → Option Err := fun _ => none

/-- Callback oracle that always succeeds (for handle_new_gens). -/
def noCbE : Entries → Option Err := fun _ => none

/-- Outcome of one write() call (rgw_log_backing.cc:446-486) as seen by a
mutator retry loop. ok: the CAS write succeeded (entries installed,
version bumped). cancUpd st' evs res: the CAS missed (-ECANCELED) and the
nested update() ran, ending in state st' with events evs and result res;
write returns res when it is an error and ECANCELED otherwise. fail e:
the write I/O failed with the non-canceled error e. -/
inductive WRes
  | ok
  | cancUpd (st' : State) (evs : List Ev) (res : Option Err)
  | fail (e : Err)

/-- Model of logback_generations::write applied to proposed entries e in
state st with I/O outcome w: (returned error, new state, events emitted
by the nested update, if any). -/
def writeM (e : Entries) (st : State) (w : WRes) : Option Err × State × List Ev :=
  match w with
  | .ok => (none, ⟨e, st.version.inc⟩, [])
  | .cancUpd st' evs res =>
    match res with
    | some er => (some er, st', evs)
    | none => (some .ecanceled, st', evs)
  | .fail er => (some er, st, [])

/-- flat_map::emplace on a sorted association list: insert (k, g) at the
sorted position unless k is already present. -/
def emplace (es : Entries) (k : Nat) (g : Gen) : Entries :=
  if es.any (fun p => p.1 = k) then es
  else es.takeWhile (fun p => p.1 < k) ++ (k, g) :: es.dropWhile (fun p => p.1 < k)

/-- Result of a mutator (new_backing / empty_to / remove_empty): returned
error code, final state, events. -/
structure MutOut where
  res : Option Err
  st : State
  evs : List Ev
deriving DecidableEq, Repr

/-- Exit mode of the new_backing retry loop: early idempotent no-op, or
loop finished after the recorded number of attempts. -/
inductive NBOut
  | earlyNoop (st : State) (evs : List Ev)
  | loopDone (ec : Option Err) (tries : Nat) (st : State) (acc : Entries) (evs : List Ev)

/-- The do/while retry loop of logback_generations::new_backing
(rgw_log_backing.cc:512-531). fuel + tries = 10 on entry; w gives the
write outcome of each attempt; acc is the accumulated new_entries map,
which the source never clears between attempts. -/
def nbGo (type : log_type) (w : Nat → WRes) :
    Nat → Nat → State → Entries → List Ev → NBOut
  | 0, tries, st, acc, evs => .loopDone (some .assertFail) tries st acc evs
  | fuel + 1, tries, st, acc, evs =>
    match st.entries_.getLast? with
    | none => .loopDone (some .assertFail) tries st acc evs
    | some last =>
      if last.2.type = type then .earlyNoop st evs
      else
        let ng := last.1 + 1
        let gen : Gen := ⟨ng, type, false⟩
        let acc' := emplace acc ng gen
        let es := emplace st.entries_ ng gen
        match writeM es st (w tries) with
        | (ec, st', evs') =>
          if ec = some Err.ecanceled ∧ tries + 1 < 10 then
            nbGo type w fuel (tries + 1) st' acc' (evs ++ evs')
          else .loopDone ec (tries + 1) st' acc' (evs ++ evs')

/-- logback_generations::new_backing (rgw_log_backing.cc:505-557).
readRes0, he, hn drive the initial update(); w gives each attempt's write
outcome; notRes is the notify result. The error returned by the final
handle_new_gens call is discarded by the source, which returns success. -/
def new_backing (type : log_type) (readRes0 : Except Err (Entries × Version))
    (he : Nat → Option Err) (hn : Entries → Option Err)
    (w : Nat → WRes) (notRes : Option Err) (st : State) : MutOut :=
  let u := update readRes0 he hn st
  match u.res with
  | some e => ⟨some e, u.st, u.evs⟩
  | none =>
    match nbGo type w 10 0 u.st [] [] with
    | .earlyNoop st' evs => ⟨none, st', u.evs ++ evs⟩
    | .loopDone ec tries st' acc evs =>
      if 10 ≤ tries then ⟨ec, st', u.evs ++ evs⟩
      else
        match ec with
        | some e => ⟨some e, st', u.evs ++ evs⟩
        | none =>
          match notRes with
          | some e => ⟨some e, st', u.evs ++ evs ++ [.notify]⟩
          | none => ⟨none, st', u.evs ++ evs ++ [.notify, .newGens acc]⟩

/-- Exit mode of the empty_to retry loop: EINVAL (trim beyond the head),
no-op (nothing below gen_id), or loop finished. -/
inductive ETOut
  | inval (st : State) (evs : List Ev)
  | noop (st : State) (evs : List Ev)
  | loopDone (ec : Option Err) (tries : Nat) (st : State) (newtail : Nat) (evs : List Ev)

/-- The do/while retry loop of logback_generations::empty_to
(rgw_log_backing.cc:568-591): mark entries with key at most gen_id as
empty, tracking newtail as the last key marked. -/
def etGo (gen_id : Nat) (w : Nat → WRes) :
    Nat → Nat → State → Nat → List Ev → ETOut
  | 0, tries, st, nt, evs => .loopDone (some .assertFail) tries st nt evs
  | fuel + 1, tries, st, nt, evs =>
    match st.entries_.getLast? with
    | none => .loopDone (some .assertFail) tries st nt evs
    | some last =>
      if last.1 ≤ gen_id then .inval st evs
      else
        let pre := st.entries_.takeWhile (fun p => p.1 ≤ gen_id)
        match pre.getLast? with
        | none => .noop st evs
        | some lastPre =>
          let es := pre.map (fun p => (p.1, { p.2 with empty := true }))
            ++ st.entries_.dropWhile (fun p => p.1 ≤ gen_id)
          match writeM es st (w tries) with
          | (ec, st', evs') =>
            if ec = some Err.ecanceled ∧ tries + 1 < 10 then
              etGo gen_id w fuel (tries + 1) st' lastPre.1 (evs ++ evs')
            else .loopDone ec (tries + 1) st' lastPre.1 (evs ++ evs')

/-- logback_generations::empty_to (rgw_log_backing.cc:559-617). Like
new_backing, the error of the final handle_empty_to call is discarded. -/
def empty_to (gen_id : Nat) (readRes0 : Except Err (Entries × Version))
    (he : Nat → Option Err) (hn : Entries → Option Err)
    (w : Nat → WRes) (notRes : Option Err) (st : State) : MutOut :=
  let u := update readRes0 he hn st
  match u.res with
  | some e => ⟨some e, u.st, u.evs⟩
  | none =>
    match etGo gen_id w 10 0 u.st 0 [] with
    | .inval st' evs => ⟨some .einval, st', u.evs ++ evs⟩
    | .noop st' evs => ⟨none, st', u.evs ++ evs⟩
    | .loopDone ec tries st' nt evs =>
      if 10 ≤ tries then ⟨ec, st', u.evs ++ evs⟩
      else
        match ec with
        | some e => ⟨some e, st', u.evs ++ evs⟩
        | none =>
          match notRes with
          | some e => ⟨some e, st', u.evs ++ evs ++ [.notify]⟩
          | none => ⟨none, st', u.evs ++ evs ++ [.notify, .emptyTo nt]⟩

/-- Outcome of the per-generation removal pass inside remove_empty: all
generations in the snapshot removed, a log_remove failure, or a failed
ceph_assert(e.empty). -/
inductive LrStep
  | okDone
  | failed (e : Err)
  | assertHit

/-- The removal pass of remove_empty over the snapshot es: each entry must
satisfy ceph_assert(e.empty); lr is the oracle for the log_remove result
on that generation. Processing stops at the first error. -/
def lrRun (lr : Nat → Option Err) : Entries → LrStep
  | [] => .okDone
  | p :: rest =>
    if p.2.empty then
      match lr p.1 with
      | some e => .failed e
      | none => lrRun lr rest
    else .assertHit

/-- Exit mode of the remove_empty retry loop. -/
inductive REOut
  | abortAssert (st : State) (evs : List Ev)
  | lrFail (e : Err) (st : State) (evs : List Ev)
  | loopDone (ec : Option Err) (tries : Nat) (st : State) (evs : List Ev)

/-- The do/while retry loop of logback_generations::remove_empty
(rgw_log_backing.cc:638-656). es is the snapshot of the empty run being
removed; the write consumes it by move, leaving later iterations with an
empty (moved-from) map, so they skip the removal pass and only rewrite
the suffix from key ln onward. -/
def reGo (lr : Nat → Option Err) (w : Nat → WRes) (ln : Nat) :
    Nat → Nat → State → Entries → List Ev → REOut
  | 0, tries, st, _, evs => .loopDone (some .assertFail) tries st evs
  | fuel + 1, tries, st, es, evs =>
    match lrRun lr es with
    | .assertHit => .abortAssert st evs
    | .failed e => .lrFail e st evs
    | .okDone =>
      let es' := st.entries_.dropWhile (fun p => p.1 ≠ ln)
      match writeM es' st (w tries) with
      | (ec, st', evs') =>
        if ec = some Err.ecanceled ∧ tries + 1 < 10 then
          reGo lr w ln fuel (tries + 1) st' [] (evs ++ evs')
        else .loopDone ec (tries + 1) st' (evs ++ evs')

/-- logback_generations::remove_empty (rgw_log_backing.cc:619-672).
lr gives the result of the log_remove call for each generation. -/
def remove_empty (readRes0 : Except Err (Entries × Version))
    (he : Nat → Option Err) (hn : Entries → Option Err)
    (lr : Nat → Option Err) (w : Nat → WRes) (st : State) : MutOut :=
  let u := update readRes0 he hn st
  match u.res with
  | some e => ⟨some e, u.st, u.evs⟩
  | none =>
    if u.st.entries_ = [] then ⟨some .assertFail, u.st, u.evs⟩
    else
      let pre := u.st.entries_.takeWhile (fun p => p.2.empty)
      if pre = [] then ⟨none, u.st, u.evs⟩
      else
        match (lowest_nomempty u.st.entries_).head? with
        | none => ⟨some .assertFail, u.st, u.evs⟩
        | some pLn =>
          match reGo lr w pLn.1 10 0 u.st pre [] with
          | .abortAssert st' evs => ⟨some .assertFail, st', u.evs ++ evs⟩
          | .lrFail e st' evs => ⟨some e, st', u.evs ++ evs⟩
          | .loopDone ec tries st' evs =>
            if 10 ≤ tries then ⟨ec, st', u.evs ++ evs⟩
            else
              match ec with
              | some e => ⟨some e, st', u.evs ++ evs⟩
              | none => ⟨none, st', u.evs ++ evs⟩

/-- A write outcome that is a CAS miss whose nested refresh succeeded,
leaving a state satisfying P. -/
def cancTo (P : State → Prop) (wr : WRes) : Prop :=
  ∃ st' evs, wr = .cancUpd st' evs none ∧ P st'

/-- State condition under which a new_backing attempt issues a write:
the last entry exists and its type differs from the requested one. -/
def nbCond (type : log_type) (st : State) : Prop :=
  ∃ l, st.entries_.getLast? = some l ∧ l.2.type ≠ type

/-- State condition under which an empty_to attempt issues a write:
gen_id is strictly below the last key and some entry has key at most
gen_id. -/
def etCond (gen_id : Nat) (st : State) : Prop :=
  (∃ l, st.entries_.getLast? = some l ∧ gen_id < l.1)
  ∧ (∃ x, (st.entries_.takeWhile (fun p => p.1 ≤ gen_id)).getLast? = some x)

/-- State condition under which remove_empty reaches its retry loop: a
non-empty map with a non-empty empty-prefix and a non-empty head region. -/
def reCond (st : State) : Prop :=
  st.entries_ ≠ []
  ∧ st.entries_.takeWhile (fun p => p.2.empty) ≠ []
  ∧ (lowest_nomempty st.entries_).head?.isSome

/-- Concrete write-result oracle for exercising new_backing: the first
attempt misses CAS and refreshes to a state whose head moved from
generation 5 to generation 7 (still FIFO); the second attempt succeeds. -/
def wC3 : Nat → WRes := fun i =>
  if i = 0 then
    .cancUpd ⟨[(5, ⟨5, .fifo, false⟩), (6, ⟨6, .fifo, false⟩), (7, ⟨7, .fifo, false⟩)],
      ⟨4, 0⟩⟩ [] none
  else .ok

/-- Concrete initial state for exercising new_backing. -/
def stC3 : State := ⟨[(5, ⟨5, .fifo, false⟩)], ⟨3, 0⟩⟩

/-- Shard classification (shard_check in the source). -/
inductive shard_check
  | dne
  | omap
  | fifo
  | corrupt
deriving DecidableEq, Repr

/-- I/O oracle for probing one shard object: the cls_log header read
(error, or whether the header is non-zero), the FIFO open with no-create,
and the two single-entry list calls (error, or whether an entry came
back). -/
structure ShardEnv where
  omapInfo : Except Err Bool
  fifoOpen : Except Err Unit
  fifoList : Except Err Bool
  omapList : Except Err Bool

/-- probe_shard (rgw_log_backing.cc:33-102): classify one shard object
and report whether it has entries. -/
def probe_shard (env : ShardEnv) : shard_check × Bool :=
  match env.omapInfo with
  | .error .enoent => (.dne, false)
  | .error _ => (.corrupt, false)
  | .ok om =>
    match env.fifoOpen with
    | .error e =>
      if e = .enoent ∨ e = .enodata then
        if om then
          match env.omapList with
          | .error _ => (.corrupt, false)
          | .ok hasE => (.omap, hasE)
        else (.dne, false)
      else (.corrupt, false)
    | .ok _ =>
      if om then (.corrupt, false)
      else
        match env.fifoList with
        | .error _ => (.corrupt, false)
        | .ok hasE => (.fifo, hasE)

/-- handle_dne (rgw_log_backing.cc:104-124): when every shard is absent,
create a FIFO on the generation's shard-0 oid if the default is FIFO
(createRes is the creation result), and return the default type. -/
def handle_dne (defType : log_type) (createRes : Option Err) :
    Except Err log_type × List Ev :=
  if defType = .fifo then
    match createRes with
    | some e => (.error e, [.fifoCreate 0])
    | none => (.ok defType, [.fifoCreate 0])
  else (.ok defType, [])

/-- The probing fold of log_backing_type over the shard list, carrying
the agreed classification so far. -/
def lbGo (check : shard_check) : List ShardEnv → Except Err shard_check
  | [] => .ok check
  | env :: rest =>
    let c := (probe_shard env).1
    if c = .corrupt then .error .eio
    else if c = .dne then lbGo check rest
    else if check = .dne then lbGo c rest
    else if check ≠ c then .error .eio
    else lbGo check rest

/-- log_backing_type (rgw_log_backing.cc:127-166): resolve the backing
type across all shards of generation 0; the second component records the
object-store writes performed (FIFO creation only). -/
def log_backing_type (defType : log_type) (envs : List ShardEnv)
    (createRes : Option Err) : Except Err log_type × List Ev :=
  match lbGo .dne envs with
  | .error e => (.error e, [])
  | .ok check =>
    if check = .corrupt then (.error .eio, [])
    else if check = .dne then handle_dne defType createRes
    else (.ok (if check = .fifo then .fifo else .omap), [])

/-- FIFO metadata as used by log_remove: the part range
[tail_part_num, head_part_num]. -/
structure FifoInfo where
  tailPart : Int
  headPart : Int
deriving DecidableEq, Repr

/-- Object-store actions issued by log_remove. -/
inductive RAct
  | removePart (shard : Nat) (part : Int)
  | removeObj (shard : Nat)
  | clearObj (shard : Nat)
deriving DecidableEq, Repr

/-- I/O oracle for one shard in log_remove: the get_meta result, the
removal result for each FIFO part, and the result of the final shard
operation (remove, or clear when shard 0 is preserved). -/
structure RShardEnv where
  metaRes : Except Err FifoInfo
  partRes : Int → Option Err
  opRes : Option Err

/-- The part indices [tailPart, headPart] of a FIFO, in order. -/
def partIdxs (info : FifoInfo) : List Int :=
  (List.range (info.headPart - info.tailPart + 1).toNat).map
    (fun k => info.tailPart + k)

/-- Errors of an object operation after discarding ENOENT ("no such
object" is ignored by log_remove). -/
def opErrL (o : Option Err) : List Err :=
  match o with
  | some e => if e = .enoent then [] else [e]
  | none => []

/-- First-error accumulation of log_remove: keep a, and take b only when
a is none (the source records an error only `if (!ec)`). -/
def firstSome (a b : Option Err) : Option Err :=
  match a with
  | some e => some e
  | none => b

/-- The final per-shard operation of log_remove: clear shard 0 in place
when leave_zero is set, otherwise remove the shard object. -/
def rFinal (leave_zero : Bool) (i : Nat) (opRes : Option Err) :
    Option Err × RAct :=
  let a := if i = 0 ∧ leave_zero then RAct.clearObj i else RAct.removeObj i
  ((opErrL opRes).head?, a)

/-- The non-ignored part-removal errors of one shard, in part order. -/
def partErrs (env : RShardEnv) (info : FifoInfo) : List Err :=
  (partIdxs info).filterMap (fun j =>
    match env.partRes j with
    | some e => if e = .enoent then none else some e
    | none => none)

/-- One iteration of the log_remove shard loop (rgw_log_backing.cc:176-226):
first error collected locally, plus the actions issued. A get_meta ENOENT
skips the shard entirely; ENODATA from get_meta is not an error. -/
def rShard (leave_zero : Bool) (i : Nat) (env : RShardEnv) :
    Option Err × List RAct :=
  match env.metaRes with
  | .error .enoent => (none, [])
  | .error e =>
    let ec0 : Option Err := if e = .enodata then none else some e
    (firstSome ec0 (rFinal leave_zero i env.opRes).1,
      [(rFinal leave_zero i env.opRes).2])
  | .ok info =>
    let pe := if (-1 : Int) < info.headPart then partErrs env info else []
    let pa := if (-1 : Int) < info.headPart then
        (partIdxs info).map (RAct.removePart i)
      else []
    (firstSome pe.head? (rFinal leave_zero i env.opRes).1,
      pa ++ [(rFinal leave_zero i env.opRes).2])

/-- log_remove (rgw_log_backing.cc:168-228), recursing over the shard
environments with the running shard index: returns the first non-ignored
error and the list of actions issued, processing every shard. -/
def log_remove (leave_zero : Bool) : Nat → List RShardEnv → Option Err × List RAct
  | _, [] => (none, [])
  | i, env :: rest =>
    (firstSome (rShard leave_zero i env).1 (log_remove leave_zero (i + 1) rest).1,
      (rShard leave_zero i env).2 ++ (log_remove leave_zero (i + 1) rest).2)

/-- The non-ignored errors of one shard of log_remove in processing
order, written after the spec: "no such object" errors are ignored, part
errors come in part order, then the get_meta error (ENODATA ignored),
then the final operation's error. -/
def rShardErrs (env : RShardEnv) : List Err :=
  match env.metaRes with
  | .error .enoent => []
  | .error e => (if e = .enodata then [] else [e]) ++ opErrL env.opRes
  | .ok info =>
    (if (-1 : Int) < info.headPart then partErrs env info else []) ++ opErrL env.opRes

/-- All non-ignored errors of log_remove in processing order, written
after the spec: the returned error is the head of this list. -/
def logRemoveErrsSpec (envs : List RShardEnv) : List Err :=
  (envs.map rShardErrs).flatten

/-- I/O oracle for logback_generations::setup: the first metadata read,
the shard probes and FIFO-creation result used by log_backing_type in the
creation branch, the random tag, the result of the exclusive-create write
of the metadata object (none = created), the re-read after a lost race,
and the result of the generation-0 cleanup log_remove. -/
structure SetupEnv where
  readRes1 : Except Err (Entries × Version)
  lbtEnvs : List ShardEnv
  lbtCreateRes : Option Err
  tag : Nat
  createMetaRes : Option Err
  readRes2 : Except Err (Entries × Version)
  lrRes : Option Err

/-- The read-or-create phase of logback_generations::setup
(rgw_log_backing.cc:242-310), up to the point where the state is
installed: returns (error, state, events). On a failed re-read the
provisional generation-0 state remains installed, as in the source. -/
def setup_phase1 (defType : log_type) (env : SetupEnv) (st : State) :
    Option Err × State × List Ev :=
  match env.readRes1 with
  | .ok (es, v) => (none, ⟨es, v⟩, [])
  | .error e =>
    if e ≠ .enoent then (some e, st, [])
    else
      match log_backing_type defType env.lbtEnvs env.lbtCreateRes with
      | (.error e2, evs) => (some e2, st, evs)
      | (.ok t, evs) =>
        let l : Gen := ⟨0, t, false⟩
        let st0 : State := ⟨emplace st.entries_ 0 l, ⟨1, env.tag⟩⟩
        match env.createMetaRes with
        | none => (none, st0, evs)
        | some _ =>
          match env.readRes2 with
          | .error e3 => (some e3, st0, evs)
          | .ok (es2, v2) =>
            match es2.head? with
            | none => (some .eio, st0, evs)
            | some p =>
              if p.2.gen_id ≠ 0 then
                match env.lrRes with
                | some e4 => (some e4, st0, evs)
                | none => (none, ⟨es2, v2⟩, evs)
              else (none, ⟨es2, v2⟩, evs)

/-- logback_generations::setup (rgw_log_backing.cc:242-328): after the
read-or-create phase succeeds, arm the watch (failure is only logged),
and deliver handle_init with every generation from the lowest non-empty
one onward, returning handle_init's result. -/
def setup (defType : log_type) (env : SetupEnv) (watchRes : Option Err)
    (hInit : Entries → Option Err) (st : State) : MutOut :=
  match setup_phase1 defType env st with
  | (some e, st', evs) => ⟨some e, st', evs⟩
  | (none, st', evs) =>
    let e' := lowest_nomempty st'.entries_
    ⟨hInit e', st', evs ++ [.watchArm watchRes, .init e']⟩

/-! Helper lemmas about dense key ranges, shared by several claims. -/

/-- If the keys of an entries list form a contiguous ascending range, the
last element of a takeWhile prefix and the head of the matching dropWhile
suffix have adjacent keys. -/
theorem takeWhile_getLast_succ_head (p : Nat × Gen → Bool) :
    ∀ (es : Entries) (a : Nat),
      es.map (fun q => q.1) = List.range' a es.length →
      ∀ x y, (es.takeWhile p).getLast? = some x →
        (es.dropWhile p).head? = some y → x.1 + 1 = y.1 := by
  intro es
  induction es with
  | nil => intro a _ x y hx _; simp at hx
  | cons q rest ih =>
    intro a hmap x y hx hy
    have hq : q.1 = a ∧ rest.map (fun r => r.1) = List.range' (a + 1) rest.length := by
      simpa [List.range'_succ] using hmap
    by_cases hp : p q
    · rw [List.takeWhile_cons_of_pos hp] at hx
      rw [List.dropWhile_cons_of_pos hp] at hy
      cases htw : rest.takeWhile p with
      | nil =>
        rw [htw] at hx
        have hxq : x = q := by simpa using hx.symm
        have hrest : rest.dropWhile p = rest := by
          have h2 := List.takeWhile_append_dropWhile (p := p) (l := rest)
          rw [htw] at h2; simpa using h2
        rw [hrest] at hy
        cases rest with
        | nil => simp at hy
        | cons r rs =>
          have hr : r.1 = a + 1 := by
            have h3 := hq.2
            simp [List.range'_succ] at h3
            exact h3.1
          have hyr : y = r := by simpa using hy.symm
          rw [hxq, hyr, hq.1, hr]
      | cons t ts =>
        rw [htw] at hx
        have hx' : (rest.takeWhile p).getLast? = some x := by
          rw [htw]
          simpa [List.getLast?_cons_cons] using hx
        exact ih (a + 1) hq.2 x y hx' hy
    · rw [List.takeWhile_cons_of_neg (by simpa using hp)] at hx
      simp at hx

/-- In a list with contiguous ascending keys starting above c, the filter
keeping keys above c keeps everything. -/
theorem filter_gt_eq_self_of_dense :
    ∀ (es : Entries) (a c : Nat),
      es.map (fun q => q.1) = List.range' a es.length →
      c < a → es.filter (fun p => c < p.1) = es := by
  intro es
  induction es with
  | nil => intro a c _ _; rfl
  | cons q rest ih =>
    intro a c hmap hca
    have hq : q.1 = a ∧ rest.map (fun r => r.1) = List.range' (a + 1) rest.length := by
      simpa [List.range'_succ] using hmap
    have hcq : c < q.1 := hq.1 ▸ hca
    simp only [List.filter_cons, decide_eq_true_eq]
    rw [if_pos hcq]
    rw [ih (a + 1) c hq.2 (by omega)]

/-- Under contiguous ascending keys, dropping the prefix of keys at most c
equals filtering to the keys strictly above c. -/
theorem dropWhile_lt_eq_filter_dense :
    ∀ (es : Entries) (a c : Nat),
      es.map (fun q => q.1) = List.range' a es.length →
      es.dropWhile (fun p => p.1 < c + 1) = es.filter (fun p => c < p.1) := by
  intro es
  induction es with
  | nil => intro a c _; rfl
  | cons q rest ih =>
    intro a c hmap
    have hq : q.1 = a ∧ rest.map (fun r => r.1) = List.range' (a + 1) rest.length := by
      simpa [List.range'_succ] using hmap
    by_cases hlt : q.1 < c + 1
    · rw [List.dropWhile_cons_of_pos (by simpa using hlt)]
      simp only [List.filter_cons, decide_eq_true_eq]
      rw [if_neg (by omega)]
      exact ih (a + 1) c hq.2
    · rw [List.dropWhile_cons_of_neg (by simpa using hlt)]
      simp only [List.filter_cons, decide_eq_true_eq]
      rw [if_pos (by omega)]
      rw [filter_gt_eq_self_of_dense rest (a + 1) c hq.2 (by omega)]

/-- Under contiguous ascending keys, every key is at most the last key. -/
theorem key_le_getLast_of_dense :
    ∀ (es : Entries) (a : Nat),
      es.map (fun q => q.1) = List.range' a es.length →
      ∀ el, es.getLast? = some el → ∀ p ∈ es, p.1 ≤ el.1 := by
  intro es
  induction es with
  | nil => intro a _ el hel; simp at hel
  | cons q rest ih =>
    intro a hmap el hel p hp
    have hq : q.1 = a ∧ rest.map (fun r => r.1) = List.range' (a + 1) rest.length := by
      simpa [List.range'_succ] using hmap
    cases rest with
    | nil =>
      have helq : el = q := by simpa using hel.symm
      have hpq : p = q := by simpa using hp
      rw [helq, hpq]
    | cons r rs =>
      have hel' : (r :: rs).getLast? = some el := by
        simpa [List.getLast?_cons_cons] using hel
      have hela : a + 1 ≤ el.1 := by
        have hmem : el ∈ r :: rs := by
          have hx : el ∈ (r :: rs).getLast? := by simp [hel', Option.mem_def]
          obtain ⟨hne, hlast⟩ := List.mem_getLast?_eq_getLast hx
          rw [hlast]
          exact List.getLast_mem hne
        have hkey : el.1 ∈ List.range' (a + 1) (r :: rs).length := by
          rw [← hq.2]
          exact List.mem_map_of_mem (fun r => r.1) hmem
        obtain ⟨i, _, hi⟩ := List.mem_range'.mp hkey
        omega
      rcases List.mem_cons.mp hp with hp | hp
      · subst hp
        omega
      · exact ih (a + 1) hq.2 el hel' p hp

/-- C1: For every call to update(): if the read version equals the
in-memory version it is a no-op returning success; otherwise, if the read
entries map is empty, or contains no non-empty entry, or its lowest
non-empty key is below the current lowest non-empty key, or its maximum
key is below the current maximum key, update() returns the distinct
inconsistency error (EFAULT) and the in-memory entries map and version
are left unchanged, with no callbacks invoked. -/
theorem C1_update_noop_and_inconsistency
    (st : State) (es : Entries) (v : Version)
    (he : Nat → Option Err) (hn : Entries → Option Err)
    (hcur : lowest_nomempty st.entries_ ≠ []) :
    (v = st.version → update (.ok (es, v)) he hn st = ⟨st, [], none⟩)
    ∧ (v ≠ st.version →
        (es = []
          ∨ lowest_nomempty es = []
          ∨ (∃ nl cl, (lowest_nomempty es).head? = some nl
              ∧ (lowest_nomempty st.entries_).head? = some cl ∧ nl.1 < cl.1)
          ∨ (∃ el tl, es.getLast? = some el ∧ st.entries_.getLast? = some tl
              ∧ el.1 < tl.1)) →
        update (.ok (es, v)) he hn st = ⟨st, [], some .efault⟩) := by
  constructor
  · intro hv
    simp [update, hv]
  · intro hv hbad
    have hv' : ¬ v = st.version := hv
    obtain ⟨cl, hcl⟩ : ∃ cl, (lowest_nomempty st.entries_).head? = some cl := by
      cases h : lowest_nomempty st.entries_ with
      | nil => exact absurd h hcur
      | cons x xs => exact ⟨x, by simp [h]⟩
    have hstne : st.entries_ ≠ [] := by
      intro h
      apply hcur
      simp [lowest_nomempty, h]
    obtain ⟨tl, htl⟩ : ∃ tl, st.entries_.getLast? = some tl := by
      cases h : st.entries_.getLast? with
      | none => exact absurd (List.getLast?_eq_none_iff.mp h) hstne
      | some x => exact ⟨x, rfl⟩
    by_cases hes : es = []
    · simp [update, hv', hes]
    · rcases hbad with h | h | h | h
      · exact absurd h hes
      · simp [update, hv', hes, h, hcl]
      · obtain ⟨nl, cl', hnl, hcl', hlt⟩ := h
        rw [hcl] at hcl'
        injection hcl' with hcl'
        subst hcl'
        simp [update, hv', hes, hcl, hnl, hlt]
      · obtain ⟨el, tl', hel, htl', hlt⟩ := h
        rw [htl] at htl'
        injection htl' with htl'
        subst htl'
        cases hnl : (lowest_nomempty es).head? with
        | none => simp [update, hv', hes, hcl, hnl]
        | some nl =>
          by_cases hlow : nl.1 < cl.1
          · simp [update, hv', hes, hcl, hnl, hlow]
          · simp [update, hv', hes, hcl, hnl, hlow, htl, hel, hlt]

/-- C2 (amended): For every successful update() whose validation passes:
if the lowest non-empty key advanced and the new map still contains at
least one entry ahead of its lowest non-empty entry, highest_empty equals
the new lowest non-empty key minus 1 and handle_empty_to(highest_empty)
is invoked; then, if any keys strictly greater than the old maximum key
exist in the new map, handle_new_gens is invoked with exactly those
entries; handle_empty_to is invoked before handle_new_gens, and the new
entries map and version are installed locally. -/
theorem C2_update_callbacks_amended
    (st : State) (es : Entries) (v : Version) (a : Nat)
    (he : Nat → Option Err) (hn : Entries → Option Err)
    (cl nl tl el : Nat × Gen)
    (hv : v ≠ st.version)
    (hcl : (lowest_nomempty st.entries_).head? = some cl)
    (hnl : (lowest_nomempty es).head? = some nl)
    (htl : st.entries_.getLast? = some tl)
    (hel : es.getLast? = some el)
    (hdense : es.map (fun q => q.1) = List.range' a es.length)
    (hlow : cl.1 ≤ nl.1) (hhead : tl.1 ≤ el.1)
    (hres : (update (.ok (es, v)) he hn st).res = none) :
    (update (.ok (es, v)) he hn st).st = ⟨es, v⟩
    ∧ (update (.ok (es, v)) he hn st).evs =
        (if cl.1 < nl.1 ∧ es.takeWhile (fun p => p.2.empty) ≠ []
          then [Ev.emptyTo (nl.1 - 1)] else [])
        ++ (if es.filter (fun p => tl.1 < p.1) ≠ []
          then [Ev.newGens (es.filter (fun p => tl.1 < p.1))] else []) := by
  have hes : es ≠ [] := by
    intro h; rw [h] at hel; simp at hel
  have hv' : ¬ v = st.version := hv
  have hnlt : ¬ nl.1 < cl.1 := not_lt.mpr hlow
  have helt : ¬ el.1 < tl.1 := not_lt.mpr hhead
  have hdw : es.dropWhile (fun p => p.1 < tl.1 + 1) = es.filter (fun p => tl.1 < p.1) :=
    dropWhile_lt_eq_filter_dense es a tl.1 hdense
  by_cases hgrow : tl.1 < el.1
  · -- the head advanced: the filter is non-empty because el is in it
    have hfil : es.filter (fun p => tl.1 < p.1) ≠ [] := by
      have hmem : el ∈ es := by
        have hx : el ∈ es.getLast? := by simp [hel, Option.mem_def]
        obtain ⟨hne, hlast⟩ := List.mem_getLast?_eq_getLast hx
        rw [hlast]; exact List.getLast_mem hne
      have : el ∈ es.filter (fun p => tl.1 < p.1) :=
        List.mem_filter.mpr ⟨hmem, by simpa using hgrow⟩
      exact List.ne_nil_of_mem this
    by_cases hadv : cl.1 < nl.1
    · cases hpre : (es.takeWhile (fun p => p.2.empty)).getLast? with
      | none =>
        have hpn : es.takeWhile (fun p => p.2.empty) = [] :=
          List.getLast?_eq_none_iff.mp hpre
        constructor <;>
          simp [update, hv', hes, hcl, hnl, hnlt, htl, hel, helt, hadv, hpre,
            hgrow, hdw, hfil, hpn]
      | some x =>
        have hpn : es.takeWhile (fun p => p.2.empty) ≠ [] := by
          intro h; rw [h] at hpre; simp at hpre
        have hx1 : x.1 + 1 = nl.1 :=
          takeWhile_getLast_succ_head (fun p => p.2.empty) es a hdense x nl hpre hnl
        have hx1' : x.1 = nl.1 - 1 := by omega
        cases hhe : he x.1 with
        | some e =>
          exfalso
          have : (update (.ok (es, v)) he hn st).res = some e := by
            simp [update, hv', hes, hcl, hnl, hnlt, htl, hel, helt, hadv, hpre,
              hhe]
          rw [this] at hres; exact Option.noConfusion hres
        | none =>
          have hhe' : he (nl.1 - 1) = none := hx1' ▸ hhe
          constructor <;>
            simp [update, hv', hes, hcl, hnl, hnlt, htl, hel, helt, hadv, hpre,
              hhe, hhe', hgrow, hdw, hfil, hpn, hx1']
    · constructor <;>
        simp [update, hv', hes, hcl, hnl, hnlt, htl, hel, helt, hadv,
          hgrow, hdw, hfil]
  · -- the head did not advance: no keys above the old maximum exist
    have heq : el.1 = tl.1 := by omega
    have hfil : es.filter (fun p => tl.1 < p.1) = [] := by
      apply List.filter_eq_nil_iff.mpr
      intro p hp
      have := key_le_getLast_of_dense es a hdense el hel p hp
      simp only [decide_eq_true_eq]
      omega
    by_cases hadv : cl.1 < nl.1
    · cases hpre : (es.takeWhile (fun p => p.2.empty)).getLast? with
      | none =>
        have hpn : es.takeWhile (fun p => p.2.empty) = [] :=
          List.getLast?_eq_none_iff.mp hpre
        constructor <;>
          simp [update, hv', hes, hcl, hnl, hnlt, htl, hel, helt, hadv, hpre,
            hgrow, hfil, hpn]
      | some x =>
        have hpn : es.takeWhile (fun p => p.2.empty) ≠ [] := by
          intro h; rw [h] at hpre; simp at hpre
        have hx1 : x.1 + 1 = nl.1 :=
          takeWhile_getLast_succ_head (fun p => p.2.empty) es a hdense x nl hpre hnl
        have hx1' : x.1 = nl.1 - 1 := by omega
        cases hhe : he x.1 with
        | some e =>
          exfalso
          have : (update (.ok (es, v)) he hn st).res = some e := by
            simp [update, hv', hes, hcl, hnl, hnlt, htl, hel, helt, hadv, hpre,
              hhe]
          rw [this] at hres; exact Option.noConfusion hres
        | none =>
          have hhe' : he (nl.1 - 1) = none := hx1' ▸ hhe
          constructor <;>
            simp [update, hv', hes, hcl, hnl, hnlt, htl, hel, helt, hadv, hpre,
              hhe, hhe', hgrow, hfil, hpn, hx1']
    · constructor <;>
        simp [update, hv', hes, hcl, hnl, hnlt, htl, hel, helt, hadv,
          hgrow, hfil]

/-- Counterexample to C2 as stated: a successful update in which the
lowest non-empty key advances from 0 to 1 while the new map has no entry
ahead of its lowest non-empty entry (the empty prefix was physically
removed by another participant); no handle_empty_to callback fires. -/
theorem C2_counterexample :
    (update (.ok ([(1, ⟨1, .omap, false⟩)], ⟨2, 0⟩)) noCbN noCbE
        ⟨[(0, ⟨0, .omap, false⟩)], ⟨1, 0⟩⟩).res = none
    ∧ ((lowest_nomempty [(1, ⟨1, .omap, false⟩)]).head?.map (fun p => p.1) = some 1)
    ∧ ((lowest_nomempty [(0, ⟨0, .omap, false⟩)]).head?.map (fun p => p.1) = some 0)
    ∧ (update (.ok ([(1, ⟨1, .omap, false⟩)], ⟨2, 0⟩)) noCbN noCbE
        ⟨[(0, ⟨0, .omap, false⟩)], ⟨1, 0⟩⟩).evs
      = [Ev.newGens [(1, ⟨1, .omap, false⟩)]] := by
  refine ⟨?_, rfl, rfl, ?_⟩ <;> rfl

/-- Witness for C2 (amended) at a concrete input on which both callbacks
fire in order. -/
theorem C2_update_witness :
    (update (.ok ([(1, ⟨1, .omap, true⟩), (2, ⟨2, .omap, false⟩), (3, ⟨3, .omap, false⟩)],
        ⟨2, 0⟩)) noCbN noCbE
      ⟨[(0, ⟨0, .omap, true⟩), (1, ⟨1, .omap, false⟩)], ⟨1, 0⟩⟩).st
      = ⟨[(1, ⟨1, .omap, true⟩), (2, ⟨2, .omap, false⟩), (3, ⟨3, .omap, false⟩)], ⟨2, 0⟩⟩
    ∧ (update (.ok ([(1, ⟨1, .omap, true⟩), (2, ⟨2, .omap, false⟩), (3, ⟨3, .omap, false⟩)],
        ⟨2, 0⟩)) noCbN noCbE
      ⟨[(0, ⟨0, .omap, true⟩), (1, ⟨1, .omap, false⟩)], ⟨1, 0⟩⟩).evs
      = (if (1 : Nat) < 2 ∧
            ([(1, ⟨1, .omap, true⟩), (2, ⟨2, .omap, false⟩), (3, ⟨3, .omap, false⟩)] :
              Entries).takeWhile (fun p => p.2.empty) ≠ []
          then [Ev.emptyTo (2 - 1)] else [])
        ++ (if ([(1, ⟨1, .omap, true⟩), (2, ⟨2, .omap, false⟩), (3, ⟨3, .omap, false⟩)] :
              Entries).filter (fun p => (1 : Nat) < p.1) ≠ []
          then [Ev.newGens (([(1, ⟨1, .omap, true⟩), (2, ⟨2, .omap, false⟩),
              (3, ⟨3, .omap, false⟩)] : Entries).filter (fun p => (1 : Nat) < p.1))] else []) :=
  C2_update_callbacks_amended
    ⟨[(0, ⟨0, .omap, true⟩), (1, ⟨1, .omap, false⟩)], ⟨1, 0⟩⟩
    [(1, ⟨1, .omap, true⟩), (2, ⟨2, .omap, false⟩), (3, ⟨3, .omap, false⟩)]
    ⟨2, 0⟩ 1 noCbN noCbE
    (1, ⟨1, .omap, false⟩) (2, ⟨2, .omap, false⟩)
    (1, ⟨1, .omap, false⟩) (3, ⟨3, .omap, false⟩)
    (by decide) (by decide) (by decide) (by decide) (by decide) (by decide)
    (by decide) (by decide) (by decide)

/-- Witness for C1 at a concrete input: a no-op refresh and an
inconsistent (empty) read. -/
theorem C1_update_witness :
    update (.ok ([], ⟨1, 0⟩)) noCbN noCbE ⟨[(0, ⟨0, .omap, false⟩)], ⟨1, 0⟩⟩
      = ⟨⟨[(0, ⟨0, .omap, false⟩)], ⟨1, 0⟩⟩, [], none⟩
    ∧ update (.ok ([], ⟨2, 0⟩)) noCbN noCbE ⟨[(0, ⟨0, .omap, false⟩)], ⟨1, 0⟩⟩
      = ⟨⟨[(0, ⟨0, .omap, false⟩)], ⟨1, 0⟩⟩, [], some .efault⟩ :=
  ⟨(C1_update_noop_and_inconsistency _ _ _ _ _ (by decide)).1 rfl,
   (C1_update_noop_and_inconsistency _ _ _ _ _ (by decide)).2 (by decide) (Or.inl rfl)⟩

/-- Modelled after the source loop: if every attempt from tries on misses
CAS with a successful refresh that keeps the loop condition, the
new_backing loop exhausts all 10 attempts and ends canceled. -/
theorem nbGo_all_canc (type : log_type) (w : Nat → WRes) :
    ∀ fuel tries st acc evs,
      fuel + tries = 10 → tries < 10 → nbCond type st →
      (∀ i, tries ≤ i → i < 10 → cancTo (nbCond type) (w i)) →
      ∃ st' acc' evs',
        nbGo type w fuel tries st acc evs
          = .loopDone (some .ecanceled) 10 st' acc' evs' := by
  intro fuel
  induction fuel with
  | zero => intro tries st acc evs h10 hlt _ _; omega
  | succ f ih =>
    intro tries st acc evs h10 hlt hcond hw
    obtain ⟨l, hl, hlty⟩ := hcond
    obtain ⟨st2, evs2, hwi, hcond2⟩ := hw tries le_rfl hlt
    by_cases hstep : tries + 1 < 10
    · have heq : nbGo type w (f + 1) tries st acc evs
          = nbGo type w f (tries + 1) st2
              (emplace acc (l.1 + 1) ⟨l.1 + 1, type, false⟩) (evs ++ evs2) := by
        simp [nbGo, hl, hlty, hwi, writeM, hstep]
      rw [heq]
      exact ih (tries + 1) st2 _ _ (by omega) hstep hcond2
        (fun i hi hi' => hw i (by omega) hi')
    · have h10' : tries + 1 = 10 := by omega
      refine ⟨st2, emplace acc (l.1 + 1) ⟨l.1 + 1, type, false⟩, evs ++ evs2, ?_⟩
      rw [← h10']
      simp [nbGo, hl, hlty, hwi, writeM, hstep]

/-- If the attempts before attempt k miss CAS with condition-preserving
refreshes and attempt k fails with a non-canceled error, the new_backing
loop stops right after attempt k with that error. -/
theorem nbGo_fail_at (type : log_type) (w : Nat → WRes) (k : Nat) (e : Err)
    (hek : e ≠ .ecanceled) (hk : k < 10) (hwk : w k = .fail e) :
    ∀ fuel tries st acc evs,
      fuel + tries = 10 → tries ≤ k → nbCond type st →
      (∀ i, tries ≤ i → i < k → cancTo (nbCond type) (w i)) →
      ∃ st' acc' evs',
        nbGo type w fuel tries st acc evs = .loopDone (some e) (k + 1) st' acc' evs' := by
  intro fuel
  induction fuel with
  | zero => intro tries st acc evs h10 hle _ _; omega
  | succ f ih =>
    intro tries st acc evs h10 hle hcond hw
    obtain ⟨l, hl, hlty⟩ := hcond
    by_cases htk : tries = k
    · subst htk
      refine ⟨st, emplace acc (l.1 + 1) ⟨l.1 + 1, type, false⟩, evs, ?_⟩
      simp [nbGo, hl, hlty, hwk, writeM, hek]
    · have hlt : tries < k := by omega
      obtain ⟨st2, evs2, hwi, hcond2⟩ := hw tries le_rfl hlt
      have heq : nbGo type w (f + 1) tries st acc evs
          = nbGo type w f (tries + 1) st2
              (emplace acc (l.1 + 1) ⟨l.1 + 1, type, false⟩) (evs ++ evs2) := by
        simp [nbGo, hl, hlty, hwi, writeM]
        intro hc
        omega
      rw [heq]
      exact ih (tries + 1) st2 _ _ (by omega) (by omega) hcond2
        (fun i hi hi' => hw i (by omega) hi')

/-- empty_to loop analogue of nbGo_all_canc. -/
theorem etGo_all_canc (gen_id : Nat) (w : Nat → WRes) :
    ∀ fuel tries st nt evs,
      fuel + tries = 10 → tries < 10 → etCond gen_id st →
      (∀ i, tries ≤ i → i < 10 → cancTo (etCond gen_id) (w i)) →
      ∃ st' nt' evs',
        etGo gen_id w fuel tries st nt evs
          = .loopDone (some .ecanceled) 10 st' nt' evs' := by
  intro fuel
  induction fuel with
  | zero => intro tries st nt evs h10 hlt _ _; omega
  | succ f ih =>
    intro tries st nt evs h10 hlt hcond hw
    obtain ⟨⟨l, hl, hgl⟩, ⟨x, hx⟩⟩ := hcond
    obtain ⟨st2, evs2, hwi, hcond2⟩ := hw tries le_rfl hlt
    by_cases hstep : tries + 1 < 10
    · have heq : etGo gen_id w (f + 1) tries st nt evs
          = etGo gen_id w f (tries + 1) st2 x.1 (evs ++ evs2) := by
        simp [etGo, hl, Nat.not_le.mpr hgl, hx, hwi, writeM, hstep]
      rw [heq]
      exact ih (tries + 1) st2 _ _ (by omega) hstep hcond2
        (fun i hi hi' => hw i (by omega) hi')
    · have h10' : tries + 1 = 10 := by omega
      refine ⟨st2, x.1, evs ++ evs2, ?_⟩
      rw [← h10']
      simp [etGo, hl, Nat.not_le.mpr hgl, hx, hwi, writeM, hstep]

/-- empty_to loop analogue of nbGo_fail_at. -/
theorem etGo_fail_at (gen_id : Nat) (w : Nat → WRes) (k : Nat) (e : Err)
    (hek : e ≠ .ecanceled) (hk : k < 10) (hwk : w k = .fail e) :
    ∀ fuel tries st nt evs,
      fuel + tries = 10 → tries ≤ k → etCond gen_id st →
      (∀ i, tries ≤ i → i < k → cancTo (etCond gen_id) (w i)) →
      ∃ st' nt' evs',
        etGo gen_id w fuel tries st nt evs = .loopDone (some e) (k + 1) st' nt' evs' := by
  intro fuel
  induction fuel with
  | zero => intro tries st nt evs h10 hle _ _; omega
  | succ f ih =>
    intro tries st nt evs h10 hle hcond hw
    obtain ⟨⟨l, hl, hgl⟩, ⟨x, hx⟩⟩ := hcond
    by_cases htk : tries = k
    · subst htk
      refine ⟨st, x.1, evs, ?_⟩
      simp [etGo, hl, Nat.not_le.mpr hgl, hx, hwk, writeM, hek]
    · have hlt : tries < k := by omega
      obtain ⟨st2, evs2, hwi, hcond2⟩ := hw tries le_rfl hlt
      have heq : etGo gen_id w (f + 1) tries st nt evs
          = etGo gen_id w f (tries + 1) st2 x.1 (evs ++ evs2) := by
        simp [etGo, hl, Nat.not_le.mpr hgl, hx, hwi, writeM]
        intro hc
        omega
      rw [heq]
      exact ih (tries + 1) st2 _ _ (by omega) (by omega) hcond2
        (fun i hi hi' => hw i (by omega) hi')

/-- The removal pass succeeds on a snapshot of empty entries whose
log_remove calls all succeed. -/
theorem lrRun_okDone (lr : Nat → Option Err) :
    ∀ es : Entries, (∀ p ∈ es, p.2.empty = true) → (∀ p ∈ es, lr p.1 = none) →
      lrRun lr es = .okDone := by
  intro es
  induction es with
  | nil => intro _ _; rfl
  | cons p rest ih =>
    intro hemp hlr
    have h1 : p.2.empty = true := hemp p (by simp)
    have h2 : lr p.1 = none := hlr p (by simp)
    simp only [lrRun, h1, h2, if_true]
    exact ih (fun q hq => hemp q (by simp [hq])) (fun q hq => hlr q (by simp [hq]))

/-- remove_empty loop analogue of nbGo_all_canc. -/
theorem reGo_all_canc (lr : Nat → Option Err) (w : Nat → WRes) (ln : Nat) :
    ∀ fuel tries st es evs,
      fuel + tries = 10 → tries < 10 → lrRun lr es = .okDone →
      (∀ i, tries ≤ i → i < 10 → cancTo (fun _ => True) (w i)) →
      ∃ st' evs',
        reGo lr w ln fuel tries st es evs
          = .loopDone (some .ecanceled) 10 st' evs' := by
  intro fuel
  induction fuel with
  | zero => intro tries st es evs h10 hlt _ _; omega
  | succ f ih =>
    intro tries st es evs h10 hlt hok hw
    obtain ⟨st2, evs2, hwi, -⟩ := hw tries le_rfl hlt
    by_cases hstep : tries + 1 < 10
    · have heq : reGo lr w ln (f + 1) tries st es evs
          = reGo lr w ln f (tries + 1) st2 [] (evs ++ evs2) := by
        simp [reGo, hok, hwi, writeM, hstep]
      rw [heq]
      exact ih (tries + 1) st2 [] _ (by omega) hstep rfl
        (fun i hi hi' => hw i (by omega) hi')
    · have h10' : tries + 1 = 10 := by omega
      refine ⟨st2, evs ++ evs2, ?_⟩
      rw [← h10']
      simp [reGo, hok, hwi, writeM, hstep]

/-- remove_empty loop analogue of nbGo_fail_at. -/
theorem reGo_fail_at (lr : Nat → Option Err) (w : Nat → WRes) (ln : Nat)
    (k : Nat) (e : Err)
    (hek : e ≠ .ecanceled) (hk : k < 10) (hwk : w k = .fail e) :
    ∀ fuel tries st es evs,
      fuel + tries = 10 → tries ≤ k → lrRun lr es = .okDone →
      (∀ i, tries ≤ i → i < k → cancTo (fun _ => True) (w i)) →
      ∃ st' evs',
        reGo lr w ln fuel tries st es evs = .loopDone (some e) (k + 1) st' evs' := by
  intro fuel
  induction fuel with
  | zero => intro tries st es evs h10 hle _ _; omega
  | succ f ih =>
    intro tries st es evs h10 hle hok hw
    by_cases htk : tries = k
    · subst htk
      refine ⟨st, evs, ?_⟩
      simp [reGo, hok, hwk, writeM, hek]
    · have hlt : tries < k := by omega
      obtain ⟨st2, evs2, hwi, -⟩ := hw tries le_rfl hlt
      have heq : reGo lr w ln (f + 1) tries st es evs
          = reGo lr w ln f (tries + 1) st2 [] (evs ++ evs2) := by
        simp [reGo, hok, hwi, writeM]
        intro hc
        omega
      rw [heq]
      exact ih (tries + 1) st2 [] _ (by omega) (by omega) rfl
        (fun i hi hi' => hw i (by omega) hi')

/-- C3 (failing evaluation): new_backing accumulates new_entries across
canceled retries without clearing it. With one canceled attempt whose
refresh moved the head from generation 5 to generation 7 (still FIFO) and
a second, successful attempt appending generation 8, the final
handle_new_gens receives both the stale entry for key 6 and the real
entry for key 8, not exactly the single newly appended entry. -/
theorem C3_new_backing_stale_accumulation :
    (new_backing .omap (.ok ([], ⟨3, 0⟩)) noCbN noCbE wC3 none stC3).evs
      = [.notify, .newGens [(6, ⟨6, .omap, false⟩), (8, ⟨8, .omap, false⟩)]]
    ∧ Ev.newGens [(8, ⟨8, .omap, false⟩)]
        ∉ (new_backing .omap (.ok ([], ⟨3, 0⟩)) noCbN noCbE wC3 none stC3).evs
    ∧ (new_backing .omap (.ok ([], ⟨3, 0⟩)) noCbN noCbE wC3 none stC3).res = none := by
  refine ⟨rfl, ?_, rfl⟩
  decide

/-- Every element of the empty-prefix snapshot satisfies the empty flag. -/
theorem mem_takeWhile_empty :
    ∀ (es : Entries), ∀ p ∈ es.takeWhile (fun q => q.2.empty), p.2.empty = true := by
  intro es
  induction es with
  | nil => intro p hp; simp at hp
  | cons q rest ih =>
    intro p hp
    by_cases hq : q.2.empty
    · rw [List.takeWhile_cons_of_pos (by simpa using hq)] at hp
      rcases List.mem_cons.mp hp with h | h
      · rw [h]; exact hq
      · exact ih p h
    · rw [List.takeWhile_cons_of_neg (by simpa using hq)] at hp
      simp at hp

/-- C4: For new_backing, empty_to and remove_empty: a canceled (CAS-miss)
result from write is retried internally, and canceled is returned to the
caller only after 10 attempts have all ended in canceled; any
non-canceled error from write ends the retry loop immediately and is
returned to the caller. Stated with a no-op initial refresh and with the
per-attempt write outcomes given by the oracle w. -/
theorem C4_bounded_retry
    (type : log_type) (gen_id : Nat) (es0 : Entries)
    (he : Nat → Option Err) (hn : Entries → Option Err)
    (lr : Nat → Option Err)
    (w : Nat → WRes) (notRes : Option Err) (st : State)
    (e : Err) (k : Nat) (hek : e ≠ .ecanceled) (hk : k < 10) :
    (nbCond type st →
      ((∀ i, i < 10 → cancTo (nbCond type) (w i)) →
        (new_backing type (.ok (es0, st.version)) he hn w notRes st).res
          = some .ecanceled)
      ∧ ((∀ i, i < k → cancTo (nbCond type) (w i)) → w k = .fail e →
        (new_backing type (.ok (es0, st.version)) he hn w notRes st).res = some e))
    ∧ (etCond gen_id st →
      ((∀ i, i < 10 → cancTo (etCond gen_id) (w i)) →
        (empty_to gen_id (.ok (es0, st.version)) he hn w notRes st).res
          = some .ecanceled)
      ∧ ((∀ i, i < k → cancTo (etCond gen_id) (w i)) → w k = .fail e →
        (empty_to gen_id (.ok (es0, st.version)) he hn w notRes st).res = some e))
    ∧ (reCond st →
      (∀ p ∈ st.entries_.takeWhile (fun q => q.2.empty), lr p.1 = none) →
      ((∀ i, i < 10 → cancTo (fun _ => True) (w i)) →
        (remove_empty (.ok (es0, st.version)) he hn lr w st).res = some .ecanceled)
      ∧ ((∀ i, i < k → cancTo (fun _ => True) (w i)) → w k = .fail e →
        (remove_empty (.ok (es0, st.version)) he hn lr w st).res = some e)) := by
  have hu : update (.ok (es0, st.version)) he hn st = ⟨st, [], none⟩ := by
    simp [update]
  refine ⟨fun hcond => ⟨?_, ?_⟩, fun hcond => ⟨?_, ?_⟩, fun hcond hlr => ⟨?_, ?_⟩⟩
  · intro hwc
    obtain ⟨st', acc', evs', hnb⟩ := nbGo_all_canc type w 10 0 st [] []
      (by omega) (by omega) hcond (fun i _ hi => hwc i hi)
    simp [new_backing, hu, hnb]
  · intro hwc hwk
    obtain ⟨st', acc', evs', hnb⟩ := nbGo_fail_at type w k e hek hk hwk 10 0 st [] []
      (by omega) (by omega) hcond (fun i _ hi => hwc i hi)
    rcases Nat.lt_or_ge (k + 1) 10 with hlt | hge
    · simp [new_backing, hu, hnb, Nat.not_le.mpr hlt]
    · simp [new_backing, hu, hnb, hge]
  · intro hwc
    obtain ⟨st', nt', evs', het⟩ := etGo_all_canc gen_id w 10 0 st 0 []
      (by omega) (by omega) hcond (fun i _ hi => hwc i hi)
    simp [empty_to, hu, het]
  · intro hwc hwk
    obtain ⟨st', nt', evs', het⟩ := etGo_fail_at gen_id w k e hek hk hwk 10 0 st 0 []
      (by omega) (by omega) hcond (fun i _ hi => hwc i hi)
    rcases Nat.lt_or_ge (k + 1) 10 with hlt | hge
    · simp [empty_to, hu, het, Nat.not_le.mpr hlt]
    · simp [empty_to, hu, het, hge]
  · intro hwc
    obtain ⟨hne, hpre, hlow⟩ := hcond
    obtain ⟨pLn, hpLn⟩ := Option.isSome_iff_exists.mp hlow
    have hok : lrRun lr (st.entries_.takeWhile (fun q => q.2.empty)) = .okDone :=
      lrRun_okDone lr _ (mem_takeWhile_empty st.entries_) hlr
    obtain ⟨st', evs', hre⟩ := reGo_all_canc lr w pLn.1 10 0 st _ []
      (by omega) (by omega) hok (fun i _ hi => hwc i hi)
    simp [remove_empty, hu, hne, hpre, hpLn, hre]
  · intro hwc hwk
    obtain ⟨hne, hpre, hlow⟩ := hcond
    obtain ⟨pLn, hpLn⟩ := Option.isSome_iff_exists.mp hlow
    have hok : lrRun lr (st.entries_.takeWhile (fun q => q.2.empty)) = .okDone :=
      lrRun_okDone lr _ (mem_takeWhile_empty st.entries_) hlr
    obtain ⟨st', evs', hre⟩ := reGo_fail_at lr w pLn.1 k e hek hk hwk 10 0 st _ []
      (by omega) (by omega) hok (fun i _ hi => hwc i hi)
    rcases Nat.lt_or_ge (k + 1) 10 with hlt | hge
    · simp [remove_empty, hu, hne, hpre, hpLn, hre, Nat.not_le.mpr hlt]
    · simp [remove_empty, hu, hne, hpre, hpLn, hre, hge]

/-- Witness for C4 at a concrete input: an oracle whose every attempt is
a CAS miss refreshing to the same state makes all three mutators return
canceled after exhausting the 10 attempts. -/
theorem C4_bounded_retry_witness :
    (new_backing .omap (.ok ([], ⟨7, 0⟩)) noCbN noCbE
      (fun _ => .cancUpd ⟨[(0, ⟨0, .omap, true⟩), (1, ⟨1, .fifo, false⟩)], ⟨7, 0⟩⟩ [] none)
      none ⟨[(0, ⟨0, .omap, true⟩), (1, ⟨1, .fifo, false⟩)], ⟨7, 0⟩⟩).res
      = some .ecanceled
    ∧ (empty_to 0 (.ok ([], ⟨7, 0⟩)) noCbN noCbE
      (fun _ => .cancUpd ⟨[(0, ⟨0, .omap, true⟩), (1, ⟨1, .fifo, false⟩)], ⟨7, 0⟩⟩ [] none)
      none ⟨[(0, ⟨0, .omap, true⟩), (1, ⟨1, .fifo, false⟩)], ⟨7, 0⟩⟩).res
      = some .ecanceled
    ∧ (remove_empty (.ok ([], ⟨7, 0⟩)) noCbN noCbE (fun _ => none)
      (fun _ => .cancUpd ⟨[(0, ⟨0, .omap, true⟩), (1, ⟨1, .fifo, false⟩)], ⟨7, 0⟩⟩ [] none)
      ⟨[(0, ⟨0, .omap, true⟩), (1, ⟨1, .fifo, false⟩)], ⟨7, 0⟩⟩).res
      = some .ecanceled := by
  have hnb : nbCond .omap ⟨[(0, ⟨0, .omap, true⟩), (1, ⟨1, .fifo, false⟩)], ⟨7, 0⟩⟩ :=
    ⟨(1, ⟨1, .fifo, false⟩), by decide, by decide⟩
  have het : etCond 0 ⟨[(0, ⟨0, .omap, true⟩), (1, ⟨1, .fifo, false⟩)], ⟨7, 0⟩⟩ :=
    ⟨⟨(1, ⟨1, .fifo, false⟩), by decide, by decide⟩, ⟨(0, ⟨0, .omap, true⟩), by decide⟩⟩
  have hre : reCond ⟨[(0, ⟨0, .omap, true⟩), (1, ⟨1, .fifo, false⟩)], ⟨7, 0⟩⟩ :=
    ⟨by decide, by decide, by decide⟩
  have h := C4_bounded_retry .omap 0 [] noCbN noCbE (fun _ => none)
    (fun _ => .cancUpd ⟨[(0, ⟨0, .omap, true⟩), (1, ⟨1, .fifo, false⟩)], ⟨7, 0⟩⟩ [] none)
    none ⟨[(0, ⟨0, .omap, true⟩), (1, ⟨1, .fifo, false⟩)], ⟨7, 0⟩⟩
    .eio 0 (by decide) (by decide)
  exact ⟨(h.1 hnb).1 (fun i _ => ⟨_, _, rfl, hnb⟩),
    (h.2.1 het).1 (fun i _ => ⟨_, _, rfl, het⟩),
    ((h.2.2 hre) (fun p _ => rfl)).1 (fun i _ => ⟨_, _, rfl, trivial⟩)⟩

/-- C5: For every state in which the last (highest-key) entry already has
the requested type, new_backing returns success without performing any
write, without advancing the version, without issuing a notify, and
without invoking handle_new_gens: with a no-op initial refresh, the state
is returned unchanged and no events are emitted. -/
theorem C5_new_backing_idempotent_noop
    (type : log_type) (es0 : Entries)
    (he : Nat → Option Err) (hn : Entries → Option Err)
    (w : Nat → WRes) (notRes : Option Err) (st : State) (l : Nat × Gen)
    (hl : st.entries_.getLast? = some l) (hty : l.2.type = type) :
    new_backing type (.ok (es0, st.version)) he hn w notRes st = ⟨none, st, []⟩ := by
  have hu : update (.ok (es0, st.version)) he hn st = ⟨st, [], none⟩ := by
    simp [update]
  have hnb : nbGo type w 10 0 st [] [] = .earlyNoop st [] := by
    rw [show (10 : Nat) = 9 + 1 from rfl]
    simp [nbGo, hl, hty]
  simp [new_backing, hu, hnb]

/-- Witness for C5 at a concrete input. -/
theorem C5_new_backing_witness :
    new_backing .fifo (.ok ([], ⟨1, 0⟩)) noCbN noCbE (fun _ => .ok) none
      ⟨[(0, ⟨0, .fifo, false⟩)], ⟨1, 0⟩⟩
      = ⟨none, ⟨[(0, ⟨0, .fifo, false⟩)], ⟨1, 0⟩⟩, []⟩ :=
  C5_new_backing_idempotent_noop .fifo [] noCbN noCbE (fun _ => .ok) none
    ⟨[(0, ⟨0, .fifo, false⟩)], ⟨1, 0⟩⟩ (0, ⟨0, .fifo, false⟩) (by decide) (by decide)

/-- C6: For every gen_id greater than or equal to the current maximum
key, empty_to(gen_id) fails with invalid_argument and leaves the entries
map and version unchanged; and if gen_id is strictly below the lowest key
(the upper bound is the beginning of the map), empty_to returns success
with no write and no notify. Stated with a no-op initial refresh. -/
theorem C6_empty_to_bounds
    (gen_id : Nat) (es0 : Entries)
    (he : Nat → Option Err) (hn : Entries → Option Err)
    (w : Nat → WRes) (notRes : Option Err) (st : State) (l : Nat × Gen)
    (hl : st.entries_.getLast? = some l) :
    (l.1 ≤ gen_id →
      empty_to gen_id (.ok (es0, st.version)) he hn w notRes st
        = ⟨some .einval, st, []⟩)
    ∧ (gen_id < l.1 → (∀ h ∈ st.entries_.head?, gen_id < h.1) →
      empty_to gen_id (.ok (es0, st.version)) he hn w notRes st = ⟨none, st, []⟩) := by
  have hu : update (.ok (es0, st.version)) he hn st = ⟨st, [], none⟩ := by
    simp [update]
  constructor
  · intro hge
    have het : etGo gen_id w 10 0 st 0 [] = .inval st [] := by
      rw [show (10 : Nat) = 9 + 1 from rfl]
      simp [etGo, hl, hge]
    simp [empty_to, hu, het]
  · intro hlt hhead
    have htw : st.entries_.takeWhile (fun p => p.1 ≤ gen_id) = [] := by
      cases hse : st.entries_ with
      | nil => rfl
      | cons h t =>
        have hh : gen_id < h.1 := hhead h (by simp [hse])
        simp [List.takeWhile_cons, Nat.not_le.mpr hh]
    have het : etGo gen_id w 10 0 st 0 [] = .noop st [] := by
      rw [show (10 : Nat) = 9 + 1 from rfl]
      simp [etGo, hl, Nat.not_le.mpr hlt, htw]
    simp [empty_to, hu, het]

/-- Witness for C6 at concrete inputs: trimming at the head key fails
EINVAL; trimming below the lowest key is a success no-op. -/
theorem C6_empty_to_witness :
    empty_to 1 (.ok ([], ⟨4, 0⟩)) noCbN noCbE (fun _ => .ok) none
      ⟨[(0, ⟨0, .omap, false⟩), (1, ⟨1, .fifo, false⟩)], ⟨4, 0⟩⟩
      = ⟨some .einval, ⟨[(0, ⟨0, .omap, false⟩), (1, ⟨1, .fifo, false⟩)], ⟨4, 0⟩⟩, []⟩
    ∧ empty_to 0 (.ok ([], ⟨4, 0⟩)) noCbN noCbE (fun _ => .ok) none
      ⟨[(1, ⟨1, .omap, false⟩), (2, ⟨2, .fifo, false⟩)], ⟨4, 0⟩⟩
      = ⟨none, ⟨[(1, ⟨1, .omap, false⟩), (2, ⟨2, .fifo, false⟩)], ⟨4, 0⟩⟩, []⟩ :=
  ⟨(C6_empty_to_bounds 1 [] noCbN noCbE (fun _ => .ok) none
      ⟨[(0, ⟨0, .omap, false⟩), (1, ⟨1, .fifo, false⟩)], ⟨4, 0⟩⟩
      (1, ⟨1, .fifo, false⟩) (by decide)).1 (by decide),
   (C6_empty_to_bounds 0 [] noCbN noCbE (fun _ => .ok) none
      ⟨[(1, ⟨1, .omap, false⟩), (2, ⟨2, .fifo, false⟩)], ⟨4, 0⟩⟩
      (2, ⟨2, .fifo, false⟩) (by decide)).2 (by decide) (by decide)⟩

/-- A shard probing as corrupt forces the probing fold to fail with EIO
wherever it occurs in the shard list. -/
theorem lbGo_corrupt_mem :
    ∀ (envs : List ShardEnv) (check : shard_check) (env : ShardEnv),
      env ∈ envs → (probe_shard env).1 = .corrupt →
      lbGo check envs = .error .eio := by
  intro envs
  induction envs with
  | nil => intro check env h _; simp at h
  | cons e0 rest ih =>
    intro check env hmem hc
    rcases List.mem_cons.mp hmem with h | h
    · subst h
      simp [lbGo, hc]
    · by_cases hc0 : (probe_shard e0).1 = .corrupt
      · simp [lbGo, hc0]
      · simp only [lbGo]
        rw [if_neg hc0]
        by_cases hdne : (probe_shard e0).1 = .dne
        · rw [if_pos hdne]; exact ih check env h hc
        · rw [if_neg hdne]
          by_cases hch : check = .dne
          · rw [if_pos hch]; exact ih _ env h hc
          · rw [if_neg hch]
            by_cases hne2 : check ≠ (probe_shard e0).1
            · rw [if_pos hne2]
            · rw [if_neg hne2]; exact ih check env h hc

/-- C7: For every shard object on which both FIFO evidence (FIFO open
succeeds) and OMAP evidence (non-zero cls_log header) coexist,
probe_shard returns (Corrupt, false), and log_backing_type over a shard
set containing such a shard fails with io_error. -/
theorem C7_corrupt_coexistence
    (env : ShardEnv) (envs : List ShardEnv) (defType : log_type)
    (createRes : Option Err)
    (hinfo : env.omapInfo = .ok true) (hopen : env.fifoOpen = .ok ())
    (hmem : env ∈ envs) :
    probe_shard env = (.corrupt, false)
    ∧ (log_backing_type defType envs createRes).1 = Except.error .eio := by
  have hp : probe_shard env = (.corrupt, false) := by
    simp [probe_shard, hinfo, hopen]
  refine ⟨hp, ?_⟩
  have hgo := lbGo_corrupt_mem envs .dne env hmem (by rw [hp])
  simp [log_backing_type, hgo]

/-- Witness for C7: a shard whose cls_log header is non-zero and whose
FIFO open succeeds. -/
theorem C7_corrupt_witness :
    probe_shard ⟨.ok true, .ok (), .ok false, .ok false⟩ = (.corrupt, false)
    ∧ (log_backing_type .fifo [⟨.ok true, .ok (), .ok false, .ok false⟩] none).1
      = Except.error .eio :=
  C7_corrupt_coexistence ⟨.ok true, .ok (), .ok false, .ok false⟩
    [⟨.ok true, .ok (), .ok false, .ok false⟩] .fifo none rfl rfl (by simp)

/-- When every shard probes as absent, the probing fold agrees on dne. -/
theorem lbGo_all_dne :
    ∀ (envs : List ShardEnv), (∀ env ∈ envs, (probe_shard env).1 = .dne) →
      lbGo .dne envs = .ok .dne := by
  intro envs
  induction envs with
  | nil => intro _; rfl
  | cons e0 rest ih =>
    intro hall
    have h0 : (probe_shard e0).1 = .dne := hall e0 (by simp)
    simp [lbGo, h0]
    exact ih (fun env h => hall env (by simp [h]))

/-- C8: For every run of log_backing_type in which every probed shard
classifies as Absent: if the default type is FIFO, a FIFO is created on
shard 0's oid only (no object-store write to any other shard) and FIFO
is returned; if the default type is OMAP, no object-store write is
performed and OMAP is returned. -/
theorem C8_all_absent (envs : List ShardEnv) (createRes : Option Err)
    (hall : ∀ env ∈ envs, (probe_shard env).1 = .dne) :
    log_backing_type .omap envs createRes = (.ok .omap, [])
    ∧ (createRes = none →
      log_backing_type .fifo envs createRes = (.ok .fifo, [.fifoCreate 0])) := by
  have h := lbGo_all_dne envs hall
  constructor
  · simp [log_backing_type, h, handle_dne]
  · intro hc
    simp [log_backing_type, h, handle_dne, hc]

/-- Witness for C8: one absent shard, both default types. -/
theorem C8_all_absent_witness :
    log_backing_type .omap [⟨.error .enoent, .error .enoent, .ok false, .ok false⟩] none
      = (.ok .omap, [])
    ∧ log_backing_type .fifo [⟨.error .enoent, .error .enoent, .ok false, .ok false⟩] none
      = (.ok .fifo, [.fifoCreate 0]) :=
  ⟨(C8_all_absent [⟨.error .enoent, .error .enoent, .ok false, .ok false⟩] none
      (by intro env h; simp at h; rw [h]; rfl)).1,
   (C8_all_absent [⟨.error .enoent, .error .enoent, .ok false, .ok false⟩] none
      (by intro env h; simp at h; rw [h]; rfl)).2 rfl⟩

/-- The head of an appended error list is the first-error combination of
the heads. -/
theorem head?_append_firstSome (l1 l2 : List Err) :
    (l1 ++ l2).head? = firstSome l1.head? l2.head? := by
  cases l1 <;> simp [firstSome]

/-- firstSome agrees with Option.or. -/
theorem firstSome_eq_or (a b : Option Err) : firstSome a b = a.or b := by
  cases a <;> rfl

/-- The error a single log_remove shard iteration records is the head of
its spec-side error list. -/
theorem rShard_fst_eq (leave_zero : Bool) (i : Nat) (env : RShardEnv) :
    (rShard leave_zero i env).1 = (rShardErrs env).head? := by
  rcases henv : env.metaRes with e | info
  · cases e <;>
      simp [rShard, rShardErrs, henv, rFinal, opErrL, firstSome, head?_append_firstSome]
  · simp [rShard, rShardErrs, henv, rFinal, head?_append_firstSome, firstSome_eq_or]

/-- The error log_remove returns is the first non-ignored error over all
shards in processing order. -/
theorem log_remove_fst (leave_zero : Bool) :
    ∀ (envs : List RShardEnv) (i : Nat),
      (log_remove leave_zero i envs).1 = (logRemoveErrsSpec envs).head? := by
  intro envs
  induction envs with
  | nil => intro i; rfl
  | cons env rest ih =>
    intro i
    have hspec : logRemoveErrsSpec (env :: rest)
        = rShardErrs env ++ logRemoveErrsSpec rest := by
      simp [logRemoveErrsSpec]
    rw [hspec, head?_append_firstSome]
    show firstSome (rShard leave_zero i env).1 (log_remove leave_zero (i + 1) rest).1 = _
    rw [rShard_fst_eq, ih (i + 1)]

/-- Shape of any action issued by one log_remove shard iteration with
leave_zero set. -/
theorem rShard_act_shape (i : Nat) (env : RShardEnv) (a : RAct)
    (h : a ∈ (rShard true i env).2) :
    (∃ j, a = RAct.removePart i j)
    ∨ (i = 0 ∧ a = RAct.clearObj 0)
    ∨ (i ≠ 0 ∧ a = RAct.removeObj i) := by
  rcases henv : env.metaRes with e | info
  · cases e <;> simp [rShard, henv, rFinal] at h <;>
    · by_cases hi : i = 0
      · subst hi
        exact Or.inr (Or.inl ⟨rfl, by simpa using h⟩)
      · exact Or.inr (Or.inr ⟨hi, by simpa [hi] using h⟩)
  · simp [rShard, henv, rFinal] at h
    rcases h with ⟨hh, j, hjmem, hj⟩ | h
    · exact Or.inl ⟨j, hj.symm⟩
    · by_cases hi : i = 0
      · subst hi
        exact Or.inr (Or.inl ⟨rfl, by simpa using h⟩)
      · exact Or.inr (Or.inr ⟨hi, by simpa [hi] using h⟩)

/-- Shape of any action issued by log_remove with leave_zero set: it
belongs to some shard index i + k of the processed list. -/
theorem log_remove_act_shape :
    ∀ (envs : List RShardEnv) (i : Nat) (a : RAct),
      a ∈ (log_remove true i envs).2 →
      ∃ k, k < envs.length ∧
        ((∃ j, a = RAct.removePart (i + k) j)
          ∨ (i + k = 0 ∧ a = RAct.clearObj 0)
          ∨ (i + k ≠ 0 ∧ a = RAct.removeObj (i + k))) := by
  intro envs
  induction envs with
  | nil => intro i a h; simp [log_remove] at h
  | cons env rest ih =>
    intro i a h
    have h2 : a ∈ (rShard true i env).2 ++ (log_remove true (i + 1) rest).2 := h
    rcases List.mem_append.mp h2 with h3 | h3
    · refine ⟨0, by simp, ?_⟩
      simpa using rShard_act_shape i env a h3
    · obtain ⟨k, hk, hsh⟩ := ih (i + 1) a h3
      refine ⟨k + 1, by simpa using hk, ?_⟩
      have : i + 1 + k = i + (k + 1) := by omega
      rw [this] at hsh
      exact hsh

/-- log_remove issues the per-shard final action (clear for shard 0,
remove otherwise) for every shard whose get_meta did not return ENOENT. -/
theorem log_remove_mem_final_act :
    ∀ (envs : List RShardEnv) (i k : Nat) (env : RShardEnv),
      envs[k]? = some env → env.metaRes ≠ .error .enoent →
      (if i + k = 0 then RAct.clearObj 0 else RAct.removeObj (i + k))
        ∈ (log_remove true i envs).2 := by
  intro envs
  induction envs with
  | nil => intro i k env h _; simp at h
  | cons env0 rest ih =>
    intro i k env hk hmeta
    cases k with
    | zero =>
      have henv : env0 = env := by simpa using hk
      subst henv
      have hfin : (if i + 0 = 0 then RAct.clearObj 0 else RAct.removeObj (i + 0))
          ∈ (rShard true i env0).2 := by
        rcases hm : env0.metaRes with e | info
        · cases e <;> simp_all [rShard, rFinal]
        · by_cases hi : i = 0
          · subst hi; simp [rShard, hm, rFinal]
          · simp [rShard, hm, rFinal, hi]
      have : (rShard true i env0).2 ⊆ (log_remove true i (env0 :: rest)).2 := by
        intro x hx
        exact List.mem_append.mpr (Or.inl hx)
      simpa using this hfin
    | succ k' =>
      have hk' : rest[k']? = some env := by simpa using hk
      have hmem := ih (i + 1) k' env hk' hmeta
      have harith : i + 1 + k' = i + (k' + 1) := by omega
      rw [harith] at hmem
      exact List.mem_append.mpr (Or.inr hmem)

/-- C9: For every call to log_remove with leave_zero set: all shards are
processed even after an error occurs, "no such object" errors are
ignored, and the returned error code is the first non-ignored error
encountered (success if none); shard 0's object is not removed but
cleared in place, and every other shard whose object exists (get_meta
did not return ENOENT) has its object removed; clears happen only on
shard 0. -/
theorem C9_log_remove_first_error_and_actions (envs : List RShardEnv) :
    (log_remove true 0 envs).1 = (logRemoveErrsSpec envs).head?
    ∧ RAct.removeObj 0 ∉ (log_remove true 0 envs).2
    ∧ (∀ env0, envs.head? = some env0 → env0.metaRes ≠ .error .enoent →
        RAct.clearObj 0 ∈ (log_remove true 0 envs).2)
    ∧ (∀ k env, envs[k + 1]? = some env → env.metaRes ≠ .error .enoent →
        RAct.removeObj (k + 1) ∈ (log_remove true 0 envs).2)
    ∧ (∀ j, RAct.clearObj j ∈ (log_remove true 0 envs).2 → j = 0) := by
  refine ⟨log_remove_fst true envs 0, ?_, ?_, ?_, ?_⟩
  · intro hmem
    obtain ⟨k, _, hsh⟩ := log_remove_act_shape envs 0 _ hmem
    rcases hsh with ⟨j, hj⟩ | ⟨_, hj⟩ | ⟨hk0, hj⟩
    · exact RAct.noConfusion hj
    · exact RAct.noConfusion hj
    · injection hj with hj'
      omega
  · intro env0 h0 hmeta
    have hk : envs[0]? = some env0 := by
      cases envs with
      | nil => simp at h0
      | cons a l => simpa using h0
    have := log_remove_mem_final_act envs 0 0 env0 hk hmeta
    simpa using this
  · intro k env hk hmeta
    have := log_remove_mem_final_act envs 0 (k + 1) env hk hmeta
    simpa using this
  · intro j hmem
    obtain ⟨k, _, hsh⟩ := log_remove_act_shape envs 0 _ hmem
    rcases hsh with ⟨j', hj⟩ | ⟨_, hj⟩ | ⟨_, hj⟩
    · exact RAct.noConfusion hj
    · injection hj
    · exact RAct.noConfusion hj

/-- Witness for C9 on two concrete shards: shard 0 a FIFO with parts 0-1
(cleared in place), shard 1 a non-FIFO object whose removal fails EIO. -/
theorem C9_log_remove_witness :
    (log_remove true 0 [⟨.ok ⟨0, 1⟩, fun _ => none, none⟩,
        ⟨.error .enodata, fun _ => none, some .eio⟩]).1
      = (logRemoveErrsSpec [⟨.ok ⟨0, 1⟩, fun _ => none, none⟩,
        ⟨.error .enodata, fun _ => none, some .eio⟩]).head?
    ∧ RAct.clearObj 0 ∈ (log_remove true 0 [⟨.ok ⟨0, 1⟩, fun _ => none, none⟩,
        ⟨.error .enodata, fun _ => none, some .eio⟩]).2
    ∧ RAct.removeObj 1 ∈ (log_remove true 0 [⟨.ok ⟨0, 1⟩, fun _ => none, none⟩,
        ⟨.error .enodata, fun _ => none, some .eio⟩]).2
    ∧ RAct.removeObj 0 ∉ (log_remove true 0 [⟨.ok ⟨0, 1⟩, fun _ => none, none⟩,
        ⟨.error .enodata, fun _ => none, some .eio⟩]).2 := by
  have h := C9_log_remove_first_error_and_actions
    [⟨.ok ⟨0, 1⟩, fun _ => none, none⟩, ⟨.error .enodata, fun _ => none, some .eio⟩]
  exact ⟨h.1, h.2.2.1 _ rfl (by simp), h.2.2.2.1 0 _ rfl (by simp), h.2.1⟩

/-- C10: For every run of setup in which reading or creating the
metadata state succeeds (setup_phase1 ends without error) but arming the
watch channel fails, setup still delivers handle_init with the non-empty
generations and returns handle_init's result; the watch-arming error is
never returned to the caller. -/
theorem C10_setup_watch_error_ignored
    (defType : log_type) (env : SetupEnv) (e : Err)
    (hInit : Entries → Option Err) (st st' : State) (evs : List Ev)
    (hph : setup_phase1 defType env st = (none, st', evs)) :
    setup defType env (some e) hInit st
      = ⟨hInit (lowest_nomempty st'.entries_), st',
          evs ++ [.watchArm (some e), .init (lowest_nomempty st'.entries_)]⟩ := by
  simp [setup, hph]

/-- Witness for C10: the metadata object exists and is read, the watch
fails with EIO, yet setup returns handle_init's result (success) and
delivers the non-empty generations. -/
theorem C10_setup_witness :
    setup .fifo ⟨.ok ([(0, ⟨0, .fifo, false⟩)], ⟨1, 0⟩), [], none, 0, none,
        .error .enoent, none⟩ (some .eio) noCbE ⟨[], ⟨0, 0⟩⟩
      = ⟨noCbE (lowest_nomempty [(0, ⟨0, .fifo, false⟩)]),
          ⟨[(0, ⟨0, .fifo, false⟩)], ⟨1, 0⟩⟩,
          [] ++ [.watchArm (some .eio),
            .init (lowest_nomempty [(0, ⟨0, .fifo, false⟩)])]⟩ :=
  C10_setup_watch_error_ignored .fifo
    ⟨.ok ([(0, ⟨0, .fifo, false⟩)], ⟨1, 0⟩), [], none, 0, none, .error .enoent, none⟩
    .eio noCbE ⟨[], ⟨0, 0⟩⟩ ⟨[(0, ⟨0, .fifo, false⟩)], ⟨1, 0⟩⟩ [] rfl
